import Mathlib

/-!
Verification of the StarCore TCG card generator and publishing-state manager.

The development shallowly embeds the two core modules:

* `resource_core_generator.py` — weighted random generation of Resource Core
  cards (tier, quality, size, four stats, derived rarity).
* `card_state_manager.py` — the draft → published → archived lifecycle
  manager over a durable keyed store.

Randomness (`random.choices(population, weights, k=1)[0]`) is abstracted by a
`RandomSource` oracle together with the contract `RandomSourceOK`: whenever the
population and weight lists have equal length and the total weight is positive,
the drawn value is a member of the population.  CPython's `random.choices`
raises `ValueError` when the total weight is not positive, so the embedded
`weighted_roll` returns `Except Unit Int` with `.error ()` in that case.

Python floats are modelled by exact rationals.  For `determine_rarity` the
only score expression is `quality * 0.7 + tier * 3` compared against the
integer thresholds 98, 90, 75 and 55.  Over the domain tier ∈ [1,10],
quality ∈ [1,100] the IEEE-754 double evaluation lands in the same band as the
exact rational value at every point: the score grid has pitch 1/10, so only
pairs whose exact score equals a threshold are at risk — (9,90) at 90,
(4,90) at 75, (2,70) and (9,40) at 55 — and at each of those the double
rounding error of `quality * 0.7` is exactly half an ulp of the following
addition, which round-to-nearest-even resolves back to the exact integer
threshold.  Hence the rational model agrees with the Python float code on the
whole domain.

Timestamps (`datetime.now().isoformat()`) are passed in as explicit `now`
string arguments, and the SHA-256 content hash of a generated card is passed
in as an opaque identifier string; no claim depends on either value.
-/

namespace StarCore

/-- Oracle abstracting Python's `random.choices(population, weights, k=1)[0]`. -/
structure RandomSource where
  choices : List Int → List ℚ → Int

/-- Contract satisfied by every real run of `random.choices`: when the
population matches the weights in length and the total weight is positive,
the draw is an element of the population. -/
def RandomSourceOK (g : RandomSource) : Prop :=
  ∀ vals ws, vals.length = ws.length → 0 < ws.sum → g.choices vals ws ∈ vals

/-- A `RandomSource` that always picks the first element. -/
def headSource : RandomSource :=
  ⟨fun vals _ => vals.headI⟩

/-- Embedding of `range(1, 11)` — the tier population. -/
def tierValues : List Int :=
  (List.range 10).map (fun (i : ℕ) => (i : Int) + 1)

/-- Embedding of `[11 - i for i in range(1, 11)]` — the tier weights `[10, 9, ..., 1]`. -/
def tierWeights : List ℚ :=
  (List.range 10).map (fun (i : ℕ) => 11 - ((i : ℚ) + 1))

/-- Embedding of `roll_tier` from `resource_core_generator.py`. -/
def roll_tier (g : RandomSource) : Int :=
  g.choices tierValues tierWeights

/-- Embedding of `range(1, 101)` — the quality population. -/
def qualityValues : List Int :=
  (List.range 100).map (fun (i : ℕ) => (i : Int) + 1)

/-- Embedding of `[101 - i for i in range(1, 101)]` — the quality weights `[100, ..., 1]`. -/
def qualityWeights : List ℚ :=
  (List.range 100).map (fun (i : ℕ) => 101 - ((i : ℚ) + 1))

/-- Embedding of `roll_quality` from `resource_core_generator.py`. -/
def roll_quality (g : RandomSource) : Int :=
  g.choices qualityValues qualityWeights

/-- Embedding of `calculate_weight`: `(tier / 10.0) * (quality / 100.0)`. -/
def calculate_weight (tier quality : Int) : ℚ :=
  ((tier : ℚ) / 10) * ((quality : ℚ) / 100)

/-- Embedding of `list(range(min_val, max_val + 1))`. -/
def rangeValues (min_val max_val : Int) : List Int :=
  (List.range (max_val + 1 - min_val).toNat).map
    (fun (i : ℕ) => min_val + (i : Int))

/-- The weight list `[1 + (i * weight * 10) for i in range(range_size)]`. -/
def rollWeights (range_size : Nat) (weight : ℚ) : List ℚ :=
  (List.range range_size).map (fun (i : ℕ) => 1 + (i : ℚ) * weight * 10)

/-- Embedding of `weighted_roll` from `resource_core_generator.py`.  The early return for
`min_val == max_val` never consults the random source.  Otherwise
`random.choices` is called, which raises `ValueError` ("Total of weights must
be greater than zero") when the weight total is not positive; the raise is
modelled by `.error ()`. -/
def weighted_roll (g : RandomSource) (min_val max_val : Int) (weight : ℚ) :
    Except Unit Int :=
  if min_val = max_val then
    .ok min_val
  else if (rollWeights (max_val - min_val + 1).toNat weight).sum ≤ 0 then
    .error ()
  else
    .ok (g.choices (rangeValues min_val max_val)
      (rollWeights (max_val - min_val + 1).toNat weight))

/-- Embedding of `determine_size_from_tier` from `resource_core_generator.py`. -/
def determine_size_from_tier (tier : Int) : String :=
  if tier ≤ 3 then "Small"
  else if tier ≤ 6 then "Medium"
  else if tier ≤ 8 then "Large"
  else "Massive"

/-- One row of the `CORE_RANGES` table. -/
structure StatRanges where
  cost : Int × Int
  rpt : Int × Int
  hp : Int × Int
  links : Int × Int
deriving DecidableEq

/-- Embedding of `CORE_RANGES` from `resource_core_generator.py`; `none` models a missing
dictionary key. -/
def CORE_RANGES : String → Option StatRanges
  | "Small" => some ⟨(0, 0), (2, 2), (2, 4), (1, 1)⟩
  | "Medium" => some ⟨(1, 3), (2, 4), (3, 5), (1, 2)⟩
  | "Large" => some ⟨(2, 5), (3, 6), (4, 8), (1, 3)⟩
  | "Massive" => some ⟨(4, 8), (5, 10), (7, 12), (2, 4)⟩
  | _ => none

/-- The score `(quality * 0.7) + (tier * 3)` from `determine_rarity`; the float
literal `0.7` is the exact rational `7/10` here (see the header comment for
why the IEEE double evaluation bands identically on the domain). -/
def rarityScore (tier quality : Int) : ℚ :=
  (quality : ℚ) * (7 / 10) + (tier : ℚ) * 3

/-- Embedding of `determine_rarity` from `resource_core_generator.py`. -/
def determine_rarity (tier quality : Int) : String :=
  if 98 ≤ rarityScore tier quality then "Legendary"
  else if 90 ≤ rarityScore tier quality then "Epic"
  else if 75 ≤ rarityScore tier quality then "Rare"
  else if 55 ≤ rarityScore tier quality then "Uncommon"
  else "Common"

/-- The `ResourceCore` dataclass (the `card_id` hash is an opaque string). -/
structure ResourceCore where
  size : String
  tier : Int
  quality : Int
  cost : Int
  rpt : Int
  hp : Int
  links : Int
  resource_type : String
  rarity : String
  card_id : String
deriving DecidableEq

/-- Embedding of `generate_resource_core` from `resource_core_generator.py`.  The `new_id`
stands for the SHA-256 content hash computed in `__post_init__`. -/
def generate_resource_core (g : RandomSource) (resource_type new_id : String) :
    Except Unit ResourceCore := do
  let tier := roll_tier g
  let quality := roll_quality g
  let weight := calculate_weight tier quality
  let size := determine_size_from_tier tier
  match CORE_RANGES size with
  | none => .error ()
  | some ranges => do
    let cost ← weighted_roll g ranges.cost.1 ranges.cost.2 weight
    let rpt ← weighted_roll g ranges.rpt.1 ranges.rpt.2 weight
    let hp ← weighted_roll g ranges.hp.1 ranges.hp.2 weight
    let links ← weighted_roll g ranges.links.1 ranges.links.2 weight
    let rarity := determine_rarity tier quality
    .ok ⟨size, tier, quality, cost, rpt, hp, links, resource_type, rarity, new_id⟩

/-- The `CardState` dataclass from `card_state_manager.py`. -/
structure CardState where
  card_id : String
  card_type : String
  state : String
  created_at : String
  published_at : Option String := none
  archived_at : Option String := none
  version : Int := 1
  notes : String := ""
deriving DecidableEq

/-- The in-memory `self.states` dictionary: insertion-ordered keyed entries. -/
abbrev StateMap := List (String × CardState)

/-- Dictionary key lookup (`m[k]` / `m.get(k)`), first matching entry. -/
def lookupKey {α : Type} (m : List (String × α)) (k : String) : Option α :=
  match m with
  | [] => none
  | (k2, v) :: rest => if k2 = k then some v else lookupKey rest k

/-- Dictionary value replacement at an existing key (Python mutates the
`CardState` object held under the key; the dictionary shape is unchanged). -/
def setKey {α : Type} (m : List (String × α)) (k : String) (v : α) :
    List (String × α) :=
  match m with
  | [] => []
  | (k2, v2) :: rest =>
      (if k2 = k then (k, v) else (k2, v2)) :: setKey rest k v

/-- Dictionary key deletion (`del m[k]`). -/
def removeKey {α : Type} (m : List (String × α)) (k : String) :
    List (String × α) :=
  match m with
  | [] => []
  | (k2, v2) :: rest =>
      if k2 = k then removeKey rest k else (k2, v2) :: removeKey rest k

/-- Dictionary assignment `m[k] = v`: overwrite in place when the key exists,
append otherwise. -/
def insertKey {α : Type} (m : List (String × α)) (k : String) (v : α) :
    List (String × α) :=
  if (lookupKey m k).isSome then setKey m k v else m ++ [(k, v)]

/-- Embedding of `CardStateManager.VALID_STATES`. -/
def VALID_STATES : List String := ["draft", "published", "archived"]

/-- Embedding of `CardStateManager.VALID_TRANSITIONS`; `none` models a missing dictionary
key (a plain `VALID_TRANSITIONS[s]` on such an `s` raises `KeyError`). -/
def VALID_TRANSITIONS (s : String) : Option (List String) :=
  if s = "draft" then some ["published", "archived"]
  else if s = "published" then some ["archived"]
  else if s = "archived" then some []
  else none

/-- Embedding of `CardStateManager.create_card_state`; `now` stands for
`datetime.now().isoformat()`.  Returns the (existing or fresh) record together
with the updated store. -/
def create_card_state (m : StateMap) (card_id card_type notes now : String) :
    CardState × StateMap :=
  match lookupKey m card_id with
  | some st => (st, m)
  | none =>
      let st : CardState :=
        { card_id := card_id, card_type := card_type, state := "draft",
          created_at := now, notes := notes }
      (st, m ++ [(card_id, st)])

/-- The record mutation performed on a successful transition: set `state`,
then stamp `published_at` on `new_state == "published"` and `archived_at` on
`new_state == "archived"`, leaving every other field alone. -/
def applyTarget (cs : CardState) (new_state now : String) : CardState :=
  { cs with
    state := new_state,
    published_at :=
      if new_state = "published" then some now else cs.published_at,
    archived_at :=
      if new_state = "archived" then some now else cs.archived_at }

/-- Embedding of `CardStateManager.transition_state`, where `.error ()` models the uncaught
`KeyError` raised by `VALID_TRANSITIONS[current_state]` when the stored state
string is not one of the three dictionary keys. -/
def transition_state (m : StateMap) (card_id new_state now : String) :
    Except Unit (Bool × StateMap) :=
  match lookupKey m card_id with
  | none => .ok (false, m)
  | some cs =>
      if new_state ∈ VALID_STATES then
        match VALID_TRANSITIONS cs.state with
        | none => .error ()
        | some allowed =>
            if new_state ∈ allowed then
              .ok (true, setKey m card_id (applyTarget cs new_state now))
            else .ok (false, m)
      else .ok (false, m)

/-- Embedding of `CardStateManager.can_transition` (`VALID_TRANSITIONS.get(cur, [])`). -/
def can_transition (m : StateMap) (card_id new_state : String) : Bool :=
  match lookupKey m card_id with
  | none => false
  | some cs => ((VALID_TRANSITIONS cs.state).getD []).contains new_state

/-- Embedding of `CardStateManager.delete_card_state`. -/
def delete_card_state (m : StateMap) (card_id : String) : Bool × StateMap :=
  match lookupKey m card_id with
  | some _ => (true, removeKey m card_id)
  | none => (false, m)

/-- Loop body of `CardStateManager.bulk_transition`:
`results[card_id] = self.transition_state(card_id, new_state)` in input order,
an exception from `transition_state` propagating out of the loop. -/
def bulk_go (m : StateMap) (ids : List String) (new_state now : String)
    (acc : List (String × Bool)) :
    Except Unit (List (String × Bool) × StateMap) :=
  match ids with
  | [] => .ok (acc, m)
  | id :: rest =>
      match transition_state m id new_state now with
      | .error e => .error e
      | .ok (b, m2) => bulk_go m2 rest new_state now (insertKey acc id b)

/-- Embedding of `CardStateManager.bulk_transition`. -/
def bulk_transition (m : StateMap) (ids : List String) (new_state now : String) :
    Except Unit (List (String × Bool) × StateMap) :=
  bulk_go m ids new_state now []

/-- The `stats` dictionary built by `get_stats` (the `by_type` key is added
after the counting loop). -/
structure Stats where
  total : Int
  draft : Int
  published : Int
  archived : Int
  by_type : List (String × Int)
deriving DecidableEq

/-- Embedding of `stats[card_state.state] += 1`: at loop time the dictionary has exactly
the keys `total`, `draft`, `published`, `archived`; any other state string
raises `KeyError` (modelled by `none`). -/
def bumpStateCount (st : Stats) (s : String) : Option Stats :=
  if s = "total" then some { st with total := st.total + 1 }
  else if s = "draft" then some { st with draft := st.draft + 1 }
  else if s = "published" then some { st with published := st.published + 1 }
  else if s = "archived" then some { st with archived := st.archived + 1 }
  else none

/-- The `type_counts` maintenance inside the `get_stats` loop. -/
def bumpTypeCount (tc : List (String × Int)) (t : String) : List (String × Int) :=
  match lookupKey tc t with
  | some n => insertKey tc t (n + 1)
  | none => insertKey tc t 1

/-- Counting loop of `get_stats`. -/
def stats_go (entries : List (String × CardState)) (st : Stats) :
    Except Unit Stats :=
  match entries with
  | [] => .ok st
  | (_, cs) :: rest =>
      match bumpStateCount st cs.state with
      | none => .error ()
      | some st2 =>
          stats_go rest { st2 with by_type := bumpTypeCount st2.by_type cs.card_type }

/-- Embedding of `CardStateManager.get_stats`. -/
def get_stats (m : StateMap) : Except Unit Stats :=
  stats_go m { total := (m.length : Int), draft := 0, published := 0,
               archived := 0, by_type := [] }

/-- One public mutating operation of `CardStateManager` applied to the
in-memory store. -/
inductive Step : StateMap → StateMap → Prop
  | create (m : StateMap) (id ct notes now : String) :
      Step m (create_card_state m id ct notes now).2
  | transition (m : StateMap) (id ns now : String) (b : Bool) (m2 : StateMap) :
      transition_state m id ns now = .ok (b, m2) → Step m m2
  | bulk (m : StateMap) (ids : List String) (ns now : String)
      (r : List (String × Bool)) (m2 : StateMap) :
      bulk_transition m ids ns now = .ok (r, m2) → Step m m2
  | del (m : StateMap) (id : String) :
      Step m (delete_card_state m id).2

/-- Manager stores reachable from an empty store by the public operations. -/
inductive Reachable : StateMap → Prop
  | empty : Reachable []
  | step {m m2 : StateMap} : Reachable m → Step m m2 → Reachable m2

/-- Every stored record carries one of the three legal state strings. -/
def ValidStates (m : StateMap) : Prop :=
  ∀ p ∈ m, p.2.state ∈ VALID_STATES

/-- Position of a state along the forward lifecycle
draft → published → archived. -/
def stateRank (s : String) : Nat :=
  if s = "draft" then 0
  else if s = "published" then 1
  else if s = "archived" then 2
  else 0

/-- JSON values as produced by `json.load` (numbers restricted to integers;
no claim depends on fractional numerics). -/
inductive Json where
  | null : Json
  | bool (b : Bool) : Json
  | num (n : Int) : Json
  | str (s : String) : Json
  | arr (elems : List Json) : Json
  | obj (fields : List (String × Json)) : Json

/-- What `open` + `json.load` can yield for the durable store file. -/
inductive LoadInput where
  | missingFile : LoadInput
  | undecodable : LoadInput
  | decoded (j : Json) : LoadInput

/-- A record built by `CardState(**state_data)`: Python dataclass construction
checks keyword names, not value types, so every field holds a raw JSON
value here.  Defaults mirror the dataclass defaults. -/
structure RawCardState where
  card_id : Json
  card_type : Json
  state : Json
  created_at : Json
  published_at : Json := Json.null
  archived_at : Json := Json.null
  version : Json := Json.num 1
  notes : Json := Json.str ""

/-- The keyword names accepted by `CardState(**kwargs)`. -/
def cardStateFields : List String :=
  ["card_id", "card_type", "state", "created_at",
   "published_at", "archived_at", "version", "notes"]

/-- Embedding of `CardState(**kvs)`: `none` models the `TypeError` raised on an unexpected
keyword or a missing required field. -/
def mkCardState (kvs : List (String × Json)) : Option RawCardState :=
  if kvs.all (fun p => cardStateFields.contains p.1) then
    match lookupKey kvs "card_id", lookupKey kvs "card_type",
          lookupKey kvs "state", lookupKey kvs "created_at" with
    | some a, some b, some c, some d =>
        some { card_id := a, card_type := b, state := c, created_at := d,
               published_at := (lookupKey kvs "published_at").getD Json.null,
               archived_at := (lookupKey kvs "archived_at").getD Json.null,
               version := (lookupKey kvs "version").getD (Json.num 1),
               notes := (lookupKey kvs "notes").getD (Json.str "") }
    | _, _, _, _ => none
  else none

/-- One item of the comprehension `{card_id: CardState(**state_data) ...}`:
`CardState(**state_data)` raises `TypeError` when `state_data` is not a
mapping. -/
def decodeItem : String × Json → Option (String × RawCardState)
  | (k, Json.obj kvs) => (mkCardState kvs).map (fun c => (k, c))
  | _ => none

/-- Embedding of `CardStateManager._load_states`.  Only `json.JSONDecodeError` (which an
empty file also raises) and `FileNotFoundError` are caught and turned into an
empty store; `data.items()` on a non-object (`AttributeError`) and a failing
`CardState(**state_data)` (`TypeError`) propagate, modelled by `.error ()`. -/
def load_states (input : LoadInput) : Except Unit (List (String × RawCardState)) :=
  match input with
  | .missingFile => .ok []
  | .undecodable => .ok []
  | .decoded (Json.obj items) =>
      match items.mapM decodeItem with
      | some l => .ok l
      | none => .error ()
  | .decoded _ => .error ()

/-! ### Dictionary lemmas -/

theorem lookupKey_cons_eq {α : Type} {k1 k : String} (v1 : α)
    (rest : List (String × α)) (h : k1 = k) :
    lookupKey ((k1, v1) :: rest) k = some v1 := by
  simp [lookupKey, h]

theorem lookupKey_cons_ne {α : Type} {k1 k : String} (v1 : α)
    (rest : List (String × α)) (h : ¬ k1 = k) :
    lookupKey ((k1, v1) :: rest) k = lookupKey rest k := by
  simp [lookupKey, h]

theorem setKey_cons_eq {α : Type} {k1 k : String} (v1 v : α)
    (rest : List (String × α)) (h : k1 = k) :
    setKey ((k1, v1) :: rest) k v = (k, v) :: setKey rest k v := by
  simp [setKey, h]

theorem setKey_cons_ne {α : Type} {k1 k : String} (v1 v : α)
    (rest : List (String × α)) (h : ¬ k1 = k) :
    setKey ((k1, v1) :: rest) k v = (k1, v1) :: setKey rest k v := by
  simp [setKey, h]

theorem removeKey_cons_eq {α : Type} {k1 k : String} (v1 : α)
    (rest : List (String × α)) (h : k1 = k) :
    removeKey ((k1, v1) :: rest) k = removeKey rest k := by
  simp [removeKey, h]

theorem removeKey_cons_ne {α : Type} {k1 k : String} (v1 : α)
    (rest : List (String × α)) (h : ¬ k1 = k) :
    removeKey ((k1, v1) :: rest) k = (k1, v1) :: removeKey rest k := by
  simp [removeKey, h]

theorem lookupKey_append {α : Type} (m1 m2 : List (String × α)) (k : String) :
    lookupKey (m1 ++ m2) k =
      match lookupKey m1 k with
      | some v => some v
      | none => lookupKey m2 k := by
  induction m1 with
  | nil => simp [lookupKey]
  | cons p rest ih =>
      obtain ⟨k1, v1⟩ := p
      by_cases h : k1 = k
      · rw [List.cons_append, lookupKey_cons_eq v1 (rest ++ m2) h,
          lookupKey_cons_eq v1 rest h]
      · rw [List.cons_append, lookupKey_cons_ne v1 (rest ++ m2) h,
          lookupKey_cons_ne v1 rest h, ih]

theorem lookupKey_setKey {α : Type} (m : List (String × α)) (k : String) (v : α)
    (k2 : String) :
    lookupKey (setKey m k v) k2 =
      if k2 = k then (lookupKey m k).map (fun _ => v) else lookupKey m k2 := by
  induction m with
  | nil => simp [lookupKey, setKey]
  | cons p rest ih =>
      obtain ⟨k1, v1⟩ := p
      by_cases h1 : k1 = k
      · rw [setKey_cons_eq v1 v rest h1]
        by_cases h2 : k2 = k
        · subst h2
          rw [lookupKey_cons_eq v (setKey rest k2 v) rfl, if_pos rfl,
            lookupKey_cons_eq v1 rest h1]
          rfl
        · rw [lookupKey_cons_ne v (setKey rest k v) (fun h3 => h2 h3.symm),
            ih, if_neg h2, if_neg h2,
            lookupKey_cons_ne v1 rest (fun h3 => h2 (h1 ▸ h3).symm)]
      · rw [setKey_cons_ne v1 v rest h1]
        by_cases h2 : k1 = k2
        · subst h2
          rw [lookupKey_cons_eq v1 (setKey rest k v) rfl, if_neg h1,
            lookupKey_cons_eq v1 rest rfl]
        · rw [lookupKey_cons_ne v1 (setKey rest k v) h2, ih,
            lookupKey_cons_ne v1 rest h1, lookupKey_cons_ne v1 rest h2]

theorem lookupKey_removeKey {α : Type} (m : List (String × α)) (k k2 : String) :
    lookupKey (removeKey m k) k2 =
      if k2 = k then none else lookupKey m k2 := by
  induction m with
  | nil => simp [lookupKey, removeKey]
  | cons p rest ih =>
      obtain ⟨k1, v1⟩ := p
      by_cases h1 : k1 = k
      · rw [removeKey_cons_eq v1 rest h1, ih]
        by_cases h2 : k2 = k
        · rw [if_pos h2, if_pos h2]
        · rw [if_neg h2, if_neg h2,
            lookupKey_cons_ne v1 rest (fun h3 => h2 (h1 ▸ h3).symm)]
      · rw [removeKey_cons_ne v1 rest h1]
        by_cases h2 : k1 = k2
        · subst h2
          rw [lookupKey_cons_eq v1 (removeKey rest k) rfl,
            if_neg (fun h3 : k1 = k => h1 h3), lookupKey_cons_eq v1 rest rfl]
        · rw [lookupKey_cons_ne v1 (removeKey rest k) h2, ih,
            lookupKey_cons_ne v1 rest h2]

theorem lookupKey_insertKey {α : Type} (m : List (String × α)) (k : String)
    (v : α) (k2 : String) :
    lookupKey (insertKey m k v) k2 =
      if k2 = k then some v else lookupKey m k2 := by
  by_cases hs : (lookupKey m k).isSome
  · obtain ⟨v0, hv0⟩ := Option.isSome_iff_exists.mp hs
    simp [insertKey, hv0, lookupKey_setKey]
  · have hnone : lookupKey m k = none := Option.not_isSome_iff_eq_none.mp hs
    have happ : insertKey m k v = m ++ [(k, v)] := by
      unfold insertKey
      rw [hnone]
      rfl
    rw [happ, lookupKey_append]
    rcases eq_or_ne k2 k with h2 | h2
    · subst h2
      rw [hnone, if_pos rfl]
      exact lookupKey_cons_eq v ([] : List (String × α)) rfl
    · rw [if_neg h2]
      cases h : lookupKey m k2 with
      | none =>
          rw [lookupKey_cons_ne v ([] : List (String × α))
            (fun h3 => h2 h3.symm)]
          rfl
      | some v2 => rfl

theorem lookupKey_mem {α : Type} {m : List (String × α)} {k : String} {v : α}
    (h : lookupKey m k = some v) : (k, v) ∈ m := by
  induction m with
  | nil => simp [lookupKey] at h
  | cons p rest ih =>
      obtain ⟨k1, v1⟩ := p
      by_cases h1 : k1 = k
      · subst h1
        rw [lookupKey_cons_eq v1 rest rfl] at h
        cases h
        exact List.mem_cons_self _ _
      · rw [lookupKey_cons_ne v1 rest h1] at h
        exact List.mem_cons_of_mem _ (ih h)

theorem mem_setKey {α : Type} {m : List (String × α)} {k : String} {v : α}
    {p : String × α} (h : p ∈ setKey m k v) : p = (k, v) ∨ p ∈ m := by
  induction m with
  | nil => simp [setKey] at h
  | cons q rest ih =>
      obtain ⟨k1, v1⟩ := q
      by_cases h1 : k1 = k
      · rw [setKey_cons_eq v1 v rest h1] at h
        rcases List.mem_cons.mp h with h2 | h2
        · exact Or.inl h2
        · rcases ih h2 with h3 | h3
          · exact Or.inl h3
          · exact Or.inr (List.mem_cons_of_mem _ h3)
      · rw [setKey_cons_ne v1 v rest h1] at h
        rcases List.mem_cons.mp h with h2 | h2
        · exact Or.inr (by simp [h2])
        · rcases ih h2 with h3 | h3
          · exact Or.inl h3
          · exact Or.inr (List.mem_cons_of_mem _ h3)

theorem lookupKey_isSome_iff {α : Type} (m : List (String × α)) (k : String) :
    (lookupKey m k).isSome ↔ k ∈ m.map Prod.fst := by
  induction m with
  | nil => simp [lookupKey]
  | cons p rest ih =>
      obtain ⟨k1, v1⟩ := p
      by_cases h1 : k1 = k
      · subst h1
        rw [lookupKey_cons_eq v1 rest rfl]
        simp
      · rw [lookupKey_cons_ne v1 rest h1]
        simp [ih, Ne.symm h1]

theorem keys_setKey {α : Type} (m : List (String × α)) (k : String) (v : α) :
    (setKey m k v).map Prod.fst = m.map Prod.fst := by
  induction m with
  | nil => simp [setKey]
  | cons p rest ih =>
      obtain ⟨k1, v1⟩ := p
      by_cases h1 : k1 = k
      · rw [setKey_cons_eq v1 v rest h1]
        simp [ih, h1]
      · rw [setKey_cons_ne v1 v rest h1]
        simp [ih]

/-! ### Transition lemmas -/

theorem transition_unknown {m : StateMap} {id : String} (ns now : String)
    (h : lookupKey m id = none) :
    transition_state m id ns now = .ok (false, m) := by
  unfold transition_state
  rw [h]

theorem transition_found {m : StateMap} {id : String} {cs : CardState}
    (ns now : String) (hl : lookupKey m id = some cs) :
    transition_state m id ns now =
      (if ns ∈ VALID_STATES then
        match VALID_TRANSITIONS cs.state with
        | none => .error ()
        | some allowed =>
            if ns ∈ allowed then
              .ok (true, setKey m id (applyTarget cs ns now))
            else .ok (false, m)
      else .ok (false, m)) := by
  unfold transition_state
  rw [hl]

theorem valid_transitions_isSome {s : String} (h : s ∈ VALID_STATES) :
    ∃ allowed, VALID_TRANSITIONS s = some allowed := by
  simp [VALID_STATES] at h
  rcases h with h | h | h <;> subst h <;> exact ⟨_, rfl⟩

theorem allowed_subset {s ns : String} {allowed : List String}
    (hvt : VALID_TRANSITIONS s = some allowed) (hns : ns ∈ allowed) :
    ns = "published" ∨ ns = "archived" := by
  unfold VALID_TRANSITIONS at hvt
  split_ifs at hvt <;> cases hvt <;> simp at hns <;> tauto

theorem rank_le_of_allowed {s ns : String} {allowed : List String}
    (hvt : VALID_TRANSITIONS s = some allowed) (hns : ns ∈ allowed) :
    stateRank s ≤ stateRank ns := by
  unfold VALID_TRANSITIONS at hvt
  split_ifs at hvt with h1 h2 h3 <;> cases hvt <;> simp at hns
  · subst h1
    rcases hns with h | h <;> subst h <;> simp [stateRank]
  · subst h2
    subst hns
    simp [stateRank]

theorem transition_ok_total {m : StateMap} (hv : ValidStates m)
    (id ns now : String) :
    ∃ b m2, transition_state m id ns now = .ok (b, m2) := by
  cases hl : lookupKey m id with
  | none => exact ⟨false, m, transition_unknown ns now hl⟩
  | some cs =>
      rw [transition_found ns now hl]
      by_cases hns : ns ∈ VALID_STATES
      · obtain ⟨allowed, hvt⟩ :=
          valid_transitions_isSome (hv _ (lookupKey_mem hl))
        rw [if_pos hns]
        simp only [hvt]
        by_cases ha : ns ∈ allowed
        · exact ⟨_, _, by rw [if_pos ha]⟩
        · exact ⟨_, _, by rw [if_neg ha]⟩
      · exact ⟨_, _, by rw [if_neg hns]⟩

theorem transition_false_store {m m2 : StateMap} {id ns now : String}
    (h : transition_state m id ns now = .ok (false, m2)) : m2 = m := by
  cases hl : lookupKey m id with
  | none =>
      rw [transition_unknown ns now hl] at h
      cases h
      rfl
  | some cs =>
      rw [transition_found ns now hl] at h
      by_cases hns : ns ∈ VALID_STATES
      · rw [if_pos hns] at h
        cases hvt : VALID_TRANSITIONS cs.state with
        | none => rw [hvt] at h; cases h
        | some allowed =>
            simp only [hvt] at h
            by_cases ha : ns ∈ allowed
            · rw [if_pos ha] at h; cases h
            · rw [if_neg ha] at h; cases h; rfl
      · rw [if_neg hns] at h
        cases h
        rfl

theorem transition_true_cases {m m2 : StateMap} {id ns now : String}
    (h : transition_state m id ns now = .ok (true, m2)) :
    ∃ cs allowed, lookupKey m id = some cs ∧
      VALID_TRANSITIONS cs.state = some allowed ∧
      ns ∈ VALID_STATES ∧ ns ∈ allowed ∧
      m2 = setKey m id (applyTarget cs ns now) := by
  cases hl : lookupKey m id with
  | none =>
      rw [transition_unknown ns now hl] at h
      cases h
  | some cs =>
      rw [transition_found ns now hl] at h
      by_cases hns : ns ∈ VALID_STATES
      · rw [if_pos hns] at h
        cases hvt : VALID_TRANSITIONS cs.state with
        | none => rw [hvt] at h; cases h
        | some allowed =>
            simp only [hvt] at h
            by_cases ha : ns ∈ allowed
            · rw [if_pos ha] at h
              cases h
              exact ⟨cs, allowed, rfl, hvt, hns, ha, rfl⟩
            · rw [if_neg ha] at h; cases h
      · rw [if_neg hns] at h
        cases h

theorem transition_true_of {m : StateMap} {id : String} {cs : CardState}
    {allowed : List String} (ns now : String) (hl : lookupKey m id = some cs)
    (hvt : VALID_TRANSITIONS cs.state = some allowed)
    (hns : ns ∈ VALID_STATES) (ha : ns ∈ allowed) :
    transition_state m id ns now =
      .ok (true, setKey m id (applyTarget cs ns now)) := by
  rw [transition_found ns now hl, if_pos hns]
  simp only [hvt]
  rw [if_pos ha]

theorem transition_dom {m m2 : StateMap} {id ns now : String} {b : Bool}
    (h : transition_state m id ns now = .ok (b, m2)) (k : String) :
    (lookupKey m2 k).isSome = (lookupKey m k).isSome := by
  cases b with
  | false => rw [transition_false_store h]
  | true =>
      obtain ⟨cs, allowed, hl, hvt, hns, ha, hm2⟩ := transition_true_cases h
      subst hm2
      rw [lookupKey_setKey]
      by_cases h2 : k = id
      · subst h2
        rw [if_pos rfl, hl]
        rfl
      · rw [if_neg h2]

theorem transition_rank_mono {m m2 : StateMap} {id ns now : String} {b : Bool}
    (h : transition_state m id ns now = .ok (b, m2)) (k : String)
    (c c2 : CardState) (hk : lookupKey m k = some c)
    (hk2 : lookupKey m2 k = some c2) :
    stateRank c.state ≤ stateRank c2.state := by
  cases b with
  | false =>
      rw [transition_false_store h] at hk2
      rw [hk] at hk2
      cases hk2
      exact le_refl _
  | true =>
      obtain ⟨cs, allowed, hl, hvt, hns, ha, hm2⟩ := transition_true_cases h
      subst hm2
      rw [lookupKey_setKey] at hk2
      by_cases h2 : k = id
      · subst h2
        rw [if_pos rfl, hl] at hk2
        rw [hl] at hk
        cases hk
        cases hk2
        exact rank_le_of_allowed hvt ha
      · rw [if_neg h2] at hk2
        rw [hk] at hk2
        cases hk2
        exact le_refl _

theorem validStates_setKey {m : StateMap} {id : String} {cs : CardState}
    (hv : ValidStates m) (hcs : cs.state ∈ VALID_STATES) :
    ValidStates (setKey m id cs) := by
  intro p hp
  rcases mem_setKey hp with h | h
  · rw [h]
    exact hcs
  · exact hv p h

theorem validStates_of_transition {m m2 : StateMap} {id ns now : String}
    {b : Bool} (hv : ValidStates m)
    (h : transition_state m id ns now = .ok (b, m2)) : ValidStates m2 := by
  cases b with
  | false => rw [transition_false_store h]; exact hv
  | true =>
      obtain ⟨cs, allowed, hl, hvt, hns, ha, hm2⟩ := transition_true_cases h
      subst hm2
      exact validStates_setKey hv hns

/-! ### Creation, deletion and bulk lemmas -/

theorem create_found {m : StateMap} {id : String} {cs : CardState}
    (ct notes now : String) (hl : lookupKey m id = some cs) :
    create_card_state m id ct notes now = (cs, m) := by
  unfold create_card_state
  rw [hl]

theorem create_missing {m : StateMap} {id : String} (ct notes now : String)
    (hl : lookupKey m id = none) :
    create_card_state m id ct notes now =
      ({ card_id := id, card_type := ct, state := "draft",
         created_at := now, notes := notes },
       m ++ [(id, { card_id := id, card_type := ct, state := "draft",
                    created_at := now, notes := notes })]) := by
  unfold create_card_state
  rw [hl]

theorem mem_removeKey {α : Type} {m : List (String × α)} {k : String}
    {p : String × α} (h : p ∈ removeKey m k) : p ∈ m := by
  induction m with
  | nil => simp [removeKey] at h
  | cons q rest ih =>
      obtain ⟨k1, v1⟩ := q
      by_cases h1 : k1 = k
      · rw [removeKey_cons_eq v1 rest h1] at h
        exact List.mem_cons_of_mem _ (ih h)
      · rw [removeKey_cons_ne v1 rest h1] at h
        rcases List.mem_cons.mp h with h2 | h2
        · exact h2 ▸ List.mem_cons_self _ _
        · exact List.mem_cons_of_mem _ (ih h2)

theorem validStates_of_create {m : StateMap} (hv : ValidStates m)
    (id ct notes now : String) :
    ValidStates (create_card_state m id ct notes now).2 := by
  cases hl : lookupKey m id with
  | some cs =>
      rw [create_found ct notes now hl]
      exact hv
  | none =>
      rw [create_missing ct notes now hl]
      intro p hp
      rcases List.mem_append.mp hp with h | h
      · exact hv p h
      · simp at h
        rw [h]
        simp [VALID_STATES]

theorem validStates_of_delete {m : StateMap} (hv : ValidStates m)
    (id : String) : ValidStates (delete_card_state m id).2 := by
  unfold delete_card_state
  cases hl : lookupKey m id
  · exact hv
  · exact fun p hp => hv p (mem_removeKey hp)

theorem bulk_go_valid {ids : List String} {ns now : String} :
    ∀ {m m2 : StateMap} {acc r : List (String × Bool)}, ValidStates m →
      bulk_go m ids ns now acc = .ok (r, m2) → ValidStates m2 := by
  induction ids with
  | nil =>
      intro m m2 acc r hv h
      cases h
      exact hv
  | cons id rest ih =>
      intro m m2 acc r hv h
      unfold bulk_go at h
      cases hres : transition_state m id ns now with
      | error e => rw [hres] at h; cases h
      | ok p =>
          obtain ⟨b, m1⟩ := p
          rw [hres] at h
          exact ih (validStates_of_transition hv hres) h

theorem bulk_go_total {ids : List String} {ns now : String} :
    ∀ {m : StateMap} (acc : List (String × Bool)), ValidStates m →
      ∃ r m2, bulk_go m ids ns now acc = .ok (r, m2) := by
  induction ids with
  | nil => exact fun acc _ => ⟨_, _, rfl⟩
  | cons id rest ih =>
      intro m acc hv
      obtain ⟨b, m1, hres⟩ := transition_ok_total hv id ns now
      obtain ⟨r, m2, h⟩ := ih (insertKey acc id b)
        (validStates_of_transition hv hres)
      refine ⟨r, m2, ?_⟩
      unfold bulk_go
      rw [hres]
      exact h

theorem bulk_go_dom {ids : List String} {ns now : String} :
    ∀ {m m2 : StateMap} {acc r : List (String × Bool)},
      bulk_go m ids ns now acc = .ok (r, m2) →
      ∀ k, (lookupKey m2 k).isSome = (lookupKey m k).isSome := by
  induction ids with
  | nil =>
      intro m m2 acc r h k
      cases h
      rfl
  | cons id rest ih =>
      intro m m2 acc r h k
      unfold bulk_go at h
      cases hres : transition_state m id ns now with
      | error e => rw [hres] at h; cases h
      | ok p =>
          obtain ⟨b, m1⟩ := p
          rw [hres] at h
          rw [ih h k, transition_dom hres k]

theorem bulk_go_rank_mono {ids : List String} {ns now : String} :
    ∀ {m m2 : StateMap} {acc r : List (String × Bool)},
      bulk_go m ids ns now acc = .ok (r, m2) →
      ∀ k c c2, lookupKey m k = some c → lookupKey m2 k = some c2 →
        stateRank c.state ≤ stateRank c2.state := by
  induction ids with
  | nil =>
      intro m m2 acc r h k c c2 hk hk2
      cases h
      rw [hk] at hk2
      cases hk2
      exact le_refl _
  | cons id rest ih =>
      intro m m2 acc r h k c c2 hk hk2
      unfold bulk_go at h
      cases hres : transition_state m id ns now with
      | error e => rw [hres] at h; cases h
      | ok p =>
          obtain ⟨b, m1⟩ := p
          rw [hres] at h
          have hdom : (lookupKey m1 k).isSome = (lookupKey m k).isSome :=
            transition_dom hres k
          rw [hk] at hdom
          obtain ⟨c1, hc1⟩ := Option.isSome_iff_exists.mp (by rw [hdom]; rfl)
          exact le_trans (transition_rank_mono hres k c c1 hk hc1)
            (ih h k c1 c2 hc1 hk2)

theorem step_rank_mono {m m2 : StateMap} (h : Step m m2) :
    ∀ k c c2, lookupKey m k = some c → lookupKey m2 k = some c2 →
      stateRank c.state ≤ stateRank c2.state := by
  intro k c c2 hk hk2
  cases h with
  | create id ct notes now =>
      cases hl : lookupKey m id with
      | some cs =>
          rw [create_found ct notes now hl] at hk2
          rw [hk] at hk2
          cases hk2
          exact le_refl _
      | none =>
          rw [create_missing ct notes now hl] at hk2
          simp only [lookupKey_append] at hk2
          rw [hk] at hk2
          cases hk2
          exact le_refl _
  | transition id ns now b m1 hres =>
      exact transition_rank_mono hres k c c2 hk hk2
  | bulk ids ns now r m1 hres =>
      exact bulk_go_rank_mono hres k c c2 hk hk2
  | del id =>
      unfold delete_card_state at hk2
      cases hl : lookupKey m id with
      | some cs =>
          rw [hl] at hk2
          simp only [lookupKey_removeKey] at hk2
          by_cases h2 : k = id
          · rw [if_pos h2] at hk2
            cases hk2
          · rw [if_neg h2] at hk2
            rw [hk] at hk2
            cases hk2
            exact le_refl _
      | none =>
          rw [hl] at hk2
          rw [hk] at hk2
          cases hk2
          exact le_refl _

theorem validStates_of_step {m m2 : StateMap} (hv : ValidStates m)
    (h : Step m m2) : ValidStates m2 := by
  cases h with
  | create id ct notes now => exact validStates_of_create hv id ct notes now
  | transition id ns now b m1 hres => exact validStates_of_transition hv hres
  | bulk ids ns now r m1 hres => exact bulk_go_valid hv hres
  | del id => exact validStates_of_delete hv id

theorem validStates_of_reachable {m : StateMap} (h : Reachable m) :
    ValidStates m := by
  induction h with
  | empty => intro p hp; cases hp
  | step hr hs ih => exact validStates_of_step ih hs

/-! ### Random source and roller lemmas -/

theorem tierWeights_sum_pos : 0 < tierWeights.sum := by
  have hne : tierWeights ≠ [] := by
    have hl : tierWeights.length = 10 := by
      rw [tierWeights, List.length_map, List.length_range]
    exact List.length_pos.mp (by rw [hl]; norm_num)
  refine List.sum_pos _ ?_ hne
  intro x hx
  obtain ⟨i, hi, hxe⟩ := List.mem_map.mp hx
  rw [List.mem_range] at hi
  subst hxe
  have h9 : (i : ℚ) ≤ 9 := by exact_mod_cast Nat.le_of_lt_succ hi
  linarith

theorem qualityWeights_sum_pos : 0 < qualityWeights.sum := by
  have hne : qualityWeights ≠ [] := by
    have hl : qualityWeights.length = 100 := by
      rw [qualityWeights, List.length_map, List.length_range]
    exact List.length_pos.mp (by rw [hl]; norm_num)
  refine List.sum_pos _ ?_ hne
  intro x hx
  obtain ⟨i, hi, hxe⟩ := List.mem_map.mp hx
  rw [List.mem_range] at hi
  subst hxe
  have h99 : (i : ℚ) ≤ 99 := by exact_mod_cast Nat.le_of_lt_succ hi
  linarith

theorem headSource_ok : RandomSourceOK headSource := by
  intro vals ws hlen hsum
  cases vals with
  | nil =>
      cases ws with
      | nil => simp at hsum
      | cons w rest => simp at hlen
  | cons a rest => simp [headSource, List.headI]

theorem roll_tier_bounds {g : RandomSource} (hg : RandomSourceOK g) :
    1 ≤ roll_tier g ∧ roll_tier g ≤ 10 := by
  have hmem : roll_tier g ∈ tierValues :=
    hg tierValues tierWeights rfl tierWeights_sum_pos
  have hall : ∀ x ∈ tierValues, 1 ≤ x ∧ x ≤ 10 := by decide
  exact hall _ hmem

theorem roll_quality_bounds {g : RandomSource} (hg : RandomSourceOK g) :
    1 ≤ roll_quality g ∧ roll_quality g ≤ 100 := by
  have hmem : roll_quality g ∈ qualityValues :=
    hg qualityValues qualityWeights rfl qualityWeights_sum_pos
  have hall : ∀ x ∈ qualityValues, 1 ≤ x ∧ x ≤ 100 := by decide
  exact hall _ hmem

theorem mem_rangeValues {low high x : Int} (hlh : low ≤ high)
    (h : x ∈ rangeValues low high) : low ≤ x ∧ x ≤ high := by
  unfold rangeValues at h
  obtain ⟨i, hi, hx⟩ := List.mem_map.mp h
  rw [List.mem_range] at hi
  subst hx
  omega

theorem rollWeights_pos {n : Nat} {w : ℚ} (hw : 0 ≤ w) :
    ∀ x ∈ rollWeights n w, 0 < x := by
  intro x hx
  unfold rollWeights at hx
  obtain ⟨i, hi, hxe⟩ := List.mem_map.mp hx
  subst hxe
  have h1 : (0 : ℚ) ≤ (i : ℚ) * w * 10 :=
    mul_nonneg (mul_nonneg (Nat.cast_nonneg i) hw) (by norm_num)
  linarith

theorem rollWeights_sum_pos {n : Nat} {w : ℚ} (hw : 0 ≤ w) (hn : 0 < n) :
    0 < (rollWeights n w).sum := by
  refine List.sum_pos _ (rollWeights_pos hw) ?_
  have hl : (rollWeights n w).length = n := by
    rw [rollWeights, List.length_map, List.length_range]
  exact List.length_pos.mp (by rw [hl]; omega)

theorem weighted_roll_ok {g : RandomSource} (hg : RandomSourceOK g)
    {low high : Int} (hlh : low ≤ high) {w : ℚ} (hw : 0 ≤ w) :
    ∃ v, weighted_roll g low high w = .ok v ∧ low ≤ v ∧ v ≤ high := by
  by_cases he : low = high
  · subst he
    exact ⟨low, by unfold weighted_roll; rw [if_pos rfl], le_refl low, le_refl low⟩
  · have hsum : 0 < (rollWeights (high - low + 1).toNat w).sum :=
      rollWeights_sum_pos hw (by omega)
    have hlen : (rangeValues low high).length =
        (rollWeights (high - low + 1).toNat w).length := by
      rw [rangeValues, rollWeights, List.length_map, List.length_map,
        List.length_range, List.length_range]
      omega
    have hmem := hg _ _ hlen hsum
    refine ⟨_, ?_, mem_rangeValues hlh hmem⟩
    unfold weighted_roll
    rw [if_neg he, if_neg (not_le.mpr hsum)]

/-! ### Claim theorems: generator -/

/-- C1: for every tier in [1,10] and quality in [1,100], `determine_rarity`
returns exactly the band of `score = quality*0.7 + tier*3`: Legendary on
score ≥ 98, Epic on 90 ≤ score < 98, Rare on 75 ≤ score < 90, Uncommon on
55 ≤ score < 75, Common on score < 55 — the five bands partitioning the score
domain with no gap or overlap at the thresholds 98, 90, 75, 55. -/
theorem determine_rarity_partition (tier quality : Int)
    (ht : 1 ≤ tier ∧ tier ≤ 10) (hq : 1 ≤ quality ∧ quality ≤ 100) :
    (determine_rarity tier quality = "Legendary" ↔
      98 ≤ rarityScore tier quality) ∧
    (determine_rarity tier quality = "Epic" ↔
      90 ≤ rarityScore tier quality ∧ rarityScore tier quality < 98) ∧
    (determine_rarity tier quality = "Rare" ↔
      75 ≤ rarityScore tier quality ∧ rarityScore tier quality < 90) ∧
    (determine_rarity tier quality = "Uncommon" ↔
      55 ≤ rarityScore tier quality ∧ rarityScore tier quality < 75) ∧
    (determine_rarity tier quality = "Common" ↔
      rarityScore tier quality < 55) := by
  unfold determine_rarity
  split_ifs with h1 h2 h3 h4 <;>
    refine ⟨?_, ?_, ?_, ?_, ?_⟩ <;> constructor <;> intro hx <;>
    first
      | rfl
      | linarith
      | exact absurd hx (by decide)
      | (constructor <;> linarith)
      | (exfalso; obtain ⟨hy, hz⟩ := hx; linarith)
      | (exfalso; linarith)

/-- Witness for C1 at tier 10, quality 98 (a Legendary roll). -/
theorem determine_rarity_partition_witness :
    determine_rarity 10 98 = "Legendary" ∧ 98 ≤ rarityScore 10 98 := by
  have h := determine_rarity_partition 10 98 ⟨by decide, by decide⟩
    ⟨by decide, by decide⟩
  have hs : (98 : ℚ) ≤ rarityScore 10 98 := by norm_num [rarityScore]
  exact ⟨h.1.mpr hs, hs⟩

/-- C5 counterexample: at `low = 1 ≤ 10 = high` and `bias = -1` the weight
total is `10 + 10*(-1)*45 = -440 ≤ 0`, so `random.choices` raises
`ValueError` instead of returning a value in `[1, 10]` — regardless of the
random source (shown here for the concrete `headSource`). -/
theorem weighted_roll_neg_bias_raises :
    weighted_roll headSource 1 10 (-1) = .error () := by
  have hr : List.range (((10 : Int) - 1 + 1).toNat) =
      [0, 1, 2, 3, 4, 5, 6, 7, 8, 9] := rfl
  have hsum : (rollWeights ((10 : Int) - 1 + 1).toNat (-1)).sum ≤ 0 := by
    rw [rollWeights, hr]
    norm_num [List.sum_cons]
  unfold weighted_roll
  rw [if_neg (by norm_num : ¬ (1 : Int) = 10), if_pos hsum]

/-- C5 amended: for `low ≤ high` and any bias ≥ 0 (so that the computed
weight total is positive), `weighted_roll` returns a value in `[low, high]`;
and for `low = high` it returns `low` for every random source and every bias,
without a random draw. -/
theorem weighted_roll_range (g : RandomSource) (hg : RandomSourceOK g)
    (low high : Int) (bias : ℚ) (hlh : low ≤ high) (hb : 0 ≤ bias) :
    (∃ v, weighted_roll g low high bias = .ok v ∧ low ≤ v ∧ v ≤ high) ∧
    (∀ g2 : RandomSource, ∀ b2 : ℚ, weighted_roll g2 low low b2 = .ok low) := by
  refine ⟨weighted_roll_ok hg hlh hb, fun g2 b2 => ?_⟩
  unfold weighted_roll
  rw [if_pos rfl]

/-- Witness for C5 (amended) at `(1, 10, 0)` and `(5, 5, bias)`. -/
theorem weighted_roll_range_witness :
    (∃ v, weighted_roll headSource 1 10 0 = .ok v ∧ 1 ≤ v ∧ v ≤ 10) ∧
    (∀ g2 : RandomSource, ∀ b2 : ℚ, weighted_roll g2 5 5 b2 = .ok 5) := by
  have h1 := weighted_roll_range headSource headSource_ok 1 10 0
    (by norm_num) (by norm_num)
  have h2 := weighted_roll_range headSource headSource_ok 5 5 0
    (by norm_num) (by norm_num)
  exact ⟨h1.1, h2.2⟩

theorem except_bind_ok {α β : Type} (a : α) (f : α → Except Unit β) :
    (Except.ok a : Except Unit α) >>= f = f a := rfl

/-- C4: every card returned by `generate_resource_core` has tier in [1,10],
quality in [1,100], and each of cost, rpt, hp, links inclusively within the
range `CORE_RANGES` assigns to the card's size. -/
theorem generate_resource_core_ranges (g : RandomSource)
    (hg : RandomSourceOK g) (rt idstr : String) :
    ∃ core, generate_resource_core g rt idstr = .ok core ∧
      1 ≤ core.tier ∧ core.tier ≤ 10 ∧
      1 ≤ core.quality ∧ core.quality ≤ 100 ∧
      ∃ ranges, CORE_RANGES core.size = some ranges ∧
        ranges.cost.1 ≤ core.cost ∧ core.cost ≤ ranges.cost.2 ∧
        ranges.rpt.1 ≤ core.rpt ∧ core.rpt ≤ ranges.rpt.2 ∧
        ranges.hp.1 ≤ core.hp ∧ core.hp ≤ ranges.hp.2 ∧
        ranges.links.1 ≤ core.links ∧ core.links ≤ ranges.links.2 := by
  obtain ⟨ht1, ht10⟩ := roll_tier_bounds hg
  obtain ⟨hq1, hq100⟩ := roll_quality_bounds hg
  have hw : 0 ≤ calculate_weight (roll_tier g) (roll_quality g) := by
    unfold calculate_weight
    have ha : (0 : ℚ) ≤ ((roll_tier g : Int) : ℚ) := by
      exact_mod_cast (by linarith : (0 : Int) ≤ roll_tier g)
    have hb : (0 : ℚ) ≤ ((roll_quality g : Int) : ℚ) := by
      exact_mod_cast (by linarith : (0 : Int) ≤ roll_quality g)
    exact mul_nonneg (div_nonneg ha (by norm_num)) (div_nonneg hb (by norm_num))
  obtain ⟨ranges, hrg, hb1, hb2, hb3, hb4⟩ :
      ∃ ranges,
        CORE_RANGES (determine_size_from_tier (roll_tier g)) = some ranges ∧
        ranges.cost.1 ≤ ranges.cost.2 ∧ ranges.rpt.1 ≤ ranges.rpt.2 ∧
        ranges.hp.1 ≤ ranges.hp.2 ∧ ranges.links.1 ≤ ranges.links.2 := by
    unfold determine_size_from_tier
    split_ifs <;> exact ⟨_, rfl, by decide, by decide, by decide, by decide⟩
  obtain ⟨c, hcEq, hc1, hc2⟩ := weighted_roll_ok hg hb1 hw
  obtain ⟨r, hrEq, hr1, hr2⟩ := weighted_roll_ok hg hb2 hw
  obtain ⟨hv, hhEq, hh1, hh2⟩ := weighted_roll_ok hg hb3 hw
  obtain ⟨l, hlEq, hl1, hl2⟩ := weighted_roll_ok hg hb4 hw
  refine ⟨⟨determine_size_from_tier (roll_tier g), roll_tier g, roll_quality g,
      c, r, hv, l, rt, determine_rarity (roll_tier g) (roll_quality g), idstr⟩,
    ?_, ht1, ht10, hq1, hq100, ranges, hrg,
    hc1, hc2, hr1, hr2, hh1, hh2, hl1, hl2⟩
  unfold generate_resource_core
  simp only [hrg, hcEq, hrEq, hhEq, hlEq, except_bind_ok]

/-- Witness for C4 at the head-picking random source. -/
theorem generate_resource_core_ranges_witness :
    ∃ core, generate_resource_core headSource "Energy" "abc123def456" =
        .ok core ∧
      1 ≤ core.tier ∧ core.tier ≤ 10 ∧
      1 ≤ core.quality ∧ core.quality ≤ 100 ∧
      ∃ ranges, CORE_RANGES core.size = some ranges ∧
        ranges.cost.1 ≤ core.cost ∧ core.cost ≤ ranges.cost.2 ∧
        ranges.rpt.1 ≤ core.rpt ∧ core.rpt ≤ ranges.rpt.2 ∧
        ranges.hp.1 ≤ core.hp ∧ core.hp ≤ ranges.hp.2 ∧
        ranges.links.1 ≤ core.links ∧ core.links ≤ ranges.links.2 :=
  generate_resource_core_ranges headSource headSource_ok "Energy"
    "abc123def456"

/-! ### Claim theorems: state manager -/

/-- C3: over any store whose records carry legal state strings,
`transition_state` is total — it returns `.ok` (never raises), returns
`false` when the id is unknown or the target is not an allowed successor of
the record's current state, and every `false` return leaves the whole store
unchanged. -/
theorem transition_state_total (m : StateMap) (hv : ValidStates m)
    (id ns now : String) :
    ∃ b m2, transition_state m id ns now = .ok (b, m2) ∧
      (b = false → m2 = m) ∧
      (lookupKey m id = none → b = false) ∧
      (∀ cs, lookupKey m id = some cs →
        ns ∉ (VALID_TRANSITIONS cs.state).getD [] → b = false) := by
  obtain ⟨b, m2, hok⟩ := transition_ok_total hv id ns now
  refine ⟨b, m2, hok, ?_, ?_, ?_⟩
  · intro hb
    subst hb
    exact transition_false_store hok
  · intro hnone
    cases b with
    | false => rfl
    | true =>
        obtain ⟨cs, allowed, hl, _, _, _, _⟩ := transition_true_cases hok
        rw [hnone] at hl
        cases hl
  · intro cs hcs hna
    cases b with
    | false => rfl
    | true =>
        obtain ⟨cs2, allowed, hl, hvt, _, ha, _⟩ := transition_true_cases hok
        rw [hcs] at hl
        cases hl
        rw [hvt] at hna
        exact absurd ha hna

/-- A sample draft record and one-record store, used by the witnesses. -/
def draftRecord : CardState :=
  { card_id := "abc", card_type := "resource_core", state := "draft",
    created_at := "t0", notes := "n" }

/-- The store holding just `draftRecord`. -/
def draftStore : StateMap := [("abc", draftRecord)]

theorem draftStore_valid : ValidStates draftStore := by
  intro p hp
  simp [draftStore] at hp
  rw [hp]
  simp [draftRecord, VALID_STATES]

/-- Witness for C3 on a one-record draft store. -/
theorem transition_state_total_witness :
    ∃ (b : Bool) (m2 : StateMap),
      transition_state draftStore "zzz" "published" "t1" = .ok (b, m2) ∧
      (b = false → m2 = draftStore) ∧
      (lookupKey draftStore "zzz" = none → b = false) ∧
      (∀ cs, lookupKey draftStore "zzz" = some cs →
        "published" ∉ (VALID_TRANSITIONS cs.state).getD [] → b = false) :=
  transition_state_total draftStore draftStore_valid "zzz" "published" "t1"

/-- C6: creation is idempotent — a second `create_card_state` with the same
id (any card type, notes and timestamp) returns the record made by the first
call with every field unchanged, and leaves the store exactly as the first
call left it. -/
theorem create_card_state_idempotent (m : StateMap)
    (id ct notes now ct2 notes2 now2 : String) :
    create_card_state (create_card_state m id ct notes now).2 id ct2 notes2
        now2 =
      ((create_card_state m id ct notes now).1,
        (create_card_state m id ct notes now).2) := by
  cases hl : lookupKey m id with
  | some cs =>
      simp only [create_found ct notes now hl]
      exact create_found ct2 notes2 now2 hl
  | none =>
      simp only [create_missing ct notes now hl]
      refine create_found ct2 notes2 now2 ?_
      rw [lookupKey_append, hl]
      exact lookupKey_cons_eq _ ([] : StateMap) rfl

/-- C9: a successful transition changes only the record's `state` and the
timestamp of the target state — `version`, `created_at`, `notes`,
`card_type`, `card_id` are preserved, `published_at` survives archiving —
and every other id's record is untouched. -/
theorem transition_state_frame (m m2 : StateMap) (id ns now : String)
    (cs : CardState) (hl : lookupKey m id = some cs)
    (h : transition_state m id ns now = .ok (true, m2)) :
    ∃ cs2, lookupKey m2 id = some cs2 ∧
      cs2.card_id = cs.card_id ∧ cs2.card_type = cs.card_type ∧
      cs2.created_at = cs.created_at ∧ cs2.version = cs.version ∧
      cs2.notes = cs.notes ∧
      (ns = "published" ∨ ns = "archived") ∧
      (ns = "published" → cs2.published_at = some now ∧
        cs2.archived_at = cs.archived_at) ∧
      (ns = "archived" → cs2.archived_at = some now ∧
        cs2.published_at = cs.published_at) ∧
      (∀ k, k ≠ id → lookupKey m2 k = lookupKey m k) := by
  obtain ⟨cs1, allowed, hl1, hvt, hns, ha, hm2⟩ := transition_true_cases h
  rw [hl] at hl1
  cases hl1
  subst hm2
  refine ⟨applyTarget cs ns now, ?_, rfl, rfl, rfl, rfl, rfl,
    allowed_subset hvt ha, ?_, ?_, ?_⟩
  · rw [lookupKey_setKey, if_pos rfl, hl]
    rfl
  · intro hpub
    subst hpub
    constructor
    · simp [applyTarget]
    · simp [applyTarget]
  · intro harc
    subst harc
    constructor
    · simp [applyTarget]
    · simp [applyTarget]
  · intro k hk
    rw [lookupKey_setKey, if_neg hk]

/-- Witness for C9: publishing the draft record of a one-record store. -/
theorem transition_state_frame_witness :
    ∃ cs2, lookupKey
        (setKey draftStore "abc" (applyTarget draftRecord "published" "t1"))
        "abc" = some cs2 ∧
      cs2.card_id = draftRecord.card_id ∧
      cs2.card_type = draftRecord.card_type ∧
      cs2.created_at = draftRecord.created_at ∧
      cs2.version = draftRecord.version ∧
      cs2.notes = draftRecord.notes ∧
      (("published" : String) = "published" ∨
        ("published" : String) = "archived") ∧
      (("published" : String) = "published" → cs2.published_at = some "t1" ∧
        cs2.archived_at = draftRecord.archived_at) ∧
      (("published" : String) = "archived" → cs2.archived_at = some "t1" ∧
        cs2.published_at = draftRecord.published_at) ∧
      (∀ k, k ≠ "abc" →
        lookupKey
          (setKey draftStore "abc" (applyTarget draftRecord "published" "t1"))
          k = lookupKey draftStore k) :=
  transition_state_frame draftStore _ "abc" "published" "t1" draftRecord
    rfl
    (transition_true_of "published" "t1" rfl
      (show VALID_TRANSITIONS draftRecord.state =
        some ["published", "archived"] from rfl)
      (by decide) (by decide))

/-- C2: in every manager state reachable from the empty store, records only
move forward along draft → published → archived: no public operation ever
lowers a record's position, from archived no transition succeeds, a
transition to draft from published or archived returns false with the store
unchanged, and draft → published, draft → archived, published → archived
succeed whenever the record exists in that source state. -/
theorem state_machine_forward (m : StateMap) (hm : Reachable m) :
    (∀ m2, Step m m2 → ∀ id c c2, lookupKey m id = some c →
      lookupKey m2 id = some c2 → stateRank c.state ≤ stateRank c2.state) ∧
    (∀ id c, lookupKey m id = some c → c.state = "archived" →
      ∀ ns now, transition_state m id ns now = .ok (false, m)) ∧
    (∀ id c, lookupKey m id = some c →
      c.state = "published" ∨ c.state = "archived" →
      ∀ now, transition_state m id "draft" now = .ok (false, m)) ∧
    (∀ id c now, lookupKey m id = some c → c.state = "draft" →
      transition_state m id "published" now =
        .ok (true, setKey m id (applyTarget c "published" now)) ∧
      transition_state m id "archived" now =
        .ok (true, setKey m id (applyTarget c "archived" now))) ∧
    (∀ id c now, lookupKey m id = some c → c.state = "published" →
      transition_state m id "archived" now =
        .ok (true, setKey m id (applyTarget c "archived" now))) := by
  refine ⟨fun m2 hs => step_rank_mono hs, ?_, ?_, ?_, ?_⟩
  · intro id c hl hst ns now
    rw [transition_found ns now hl]
    by_cases hns : ns ∈ VALID_STATES
    · rw [if_pos hns]
      have hvt : VALID_TRANSITIONS c.state = some [] := by
        rw [hst]; decide
      simp only [hvt]
      rw [if_neg (List.not_mem_nil ns)]
    · rw [if_neg hns]
  · intro id c hl hst now
    rw [transition_found "draft" now hl,
      if_pos (by decide : ("draft" : String) ∈ VALID_STATES)]
    rcases hst with hst | hst
    · have hvt : VALID_TRANSITIONS c.state = some ["archived"] := by
        rw [hst]; decide
      simp only [hvt]
      rw [if_neg (by decide : ("draft" : String) ∉ ["archived"])]
    · have hvt : VALID_TRANSITIONS c.state = some [] := by rw [hst]; decide
      simp only [hvt]
      rw [if_neg (List.not_mem_nil _)]
  · intro id c now hl hst
    have hvt : VALID_TRANSITIONS c.state = some ["published", "archived"] := by
      rw [hst]; decide
    constructor
    · exact transition_true_of "published" now hl hvt (by decide) (by decide)
    · exact transition_true_of "archived" now hl hvt (by decide) (by decide)
  · intro id c now hl hst
    have hvt : VALID_TRANSITIONS c.state = some ["archived"] := by
      rw [hst]; decide
    exact transition_true_of "archived" now hl hvt (by decide) (by decide)

/-- Witness for C2 on the reachable one-record draft store: publishing the
draft succeeds. -/
theorem state_machine_forward_witness :
    transition_state (create_card_state [] "abc" "resource_core" "n" "t0").2
        "abc" "published" "t1" =
      .ok (true,
        setKey (create_card_state [] "abc" "resource_core" "n" "t0").2 "abc"
          (applyTarget draftRecord "published" "t1")) := by
  have hm : Reachable (create_card_state [] "abc" "resource_core" "n" "t0").2 :=
    Reachable.step Reachable.empty
      (Step.create [] "abc" "resource_core" "n" "t0")
  exact ((state_machine_forward _ hm).2.2.2.1 "abc" draftRecord "t1" rfl
    rfl).1

/-- The counting loop of `get_stats` succeeds on legal state strings and adds
one to exactly one of the three per-state counters per record: the final
draft + published + archived equals the initial sum plus the number of
records folded, with the `total` field untouched. -/
theorem stats_go_spec (entries : List (String × CardState))
    (hval : ∀ p ∈ entries, p.2.state ∈ VALID_STATES) :
    ∀ acc, ∃ st, stats_go entries acc = .ok st ∧
      st.total = acc.total ∧
      st.draft + st.published + st.archived =
        acc.draft + acc.published + acc.archived + (entries.length : Int) := by
  induction entries with
  | nil =>
      intro acc
      exact ⟨acc, rfl, rfl, by simp⟩
  | cons p rest ih =>
      intro acc
      obtain ⟨k, cs⟩ := p
      have hst : cs.state ∈ VALID_STATES := hval (k, cs) (List.mem_cons_self _ _)
      have hrest : ∀ p ∈ rest, p.2.state ∈ VALID_STATES :=
        fun p hp => hval p (List.mem_cons_of_mem _ hp)
      have hcons : ∀ st2, bumpStateCount acc cs.state = some st2 →
          ∃ st, stats_go ((k, cs) :: rest) acc = .ok st ∧
            st.total = st2.total ∧
            st.draft + st.published + st.archived =
              st2.draft + st2.published + st2.archived +
                (rest.length : Int) := by
        intro st2 hb
        obtain ⟨st, hgo, ht, hs⟩ := ih hrest
          { st2 with by_type := bumpTypeCount st2.by_type cs.card_type }
        refine ⟨st, ?_, ht, hs⟩
        unfold stats_go
        simp only [hb]
        exact hgo
      simp only [VALID_STATES, List.mem_cons, List.not_mem_nil, or_false] at hst
      rcases hst with h | h | h
      · obtain ⟨st, hgo, ht, hs⟩ := hcons { acc with draft := acc.draft + 1 }
          (by rw [h]; rfl)
        exact ⟨st, hgo, ht, by simp at hs ⊢; omega⟩
      · obtain ⟨st, hgo, ht, hs⟩ := hcons
          { acc with published := acc.published + 1 } (by rw [h]; rfl)
        exact ⟨st, hgo, ht, by simp at hs ⊢; omega⟩
      · obtain ⟨st, hgo, ht, hs⟩ := hcons
          { acc with archived := acc.archived + 1 } (by rw [h]; rfl)
        exact ⟨st, hgo, ht, by simp at hs ⊢; omega⟩

/-- C10: every reachable store carries only the three legal state strings,
so `get_stats` returns without raising and its draft, published and archived
counts sum to its total count. -/
theorem get_stats_consistent (m : StateMap) (hm : Reachable m) :
    ValidStates m ∧
    ∃ st, get_stats m = .ok st ∧
      st.draft + st.published + st.archived = st.total := by
  have hv := validStates_of_reachable hm
  refine ⟨hv, ?_⟩
  obtain ⟨st, hgo, ht, hs⟩ := stats_go_spec m hv
    { total := (m.length : Int), draft := 0, published := 0, archived := 0,
      by_type := [] }
  refine ⟨st, hgo, ?_⟩
  simp at hs ht
  omega

/-- Witness for C10 on the reachable one-record draft store. -/
theorem get_stats_consistent_witness :
    ValidStates (create_card_state [] "abc" "resource_core" "n" "t0").2 ∧
    ∃ st, get_stats (create_card_state [] "abc" "resource_core" "n" "t0").2 =
        .ok st ∧
      st.draft + st.published + st.archived = st.total :=
  get_stats_consistent _
    (Reachable.step Reachable.empty
      (Step.create [] "abc" "resource_core" "n" "t0"))

/-! ### Bulk transition bookkeeping -/

theorem bulk_go_cons_ok {m m2 : StateMap} {ns now id : String}
    {rest : List String} {acc r : List (String × Bool)}
    (h : bulk_go m (id :: rest) ns now acc = .ok (r, m2)) :
    ∃ b m1, transition_state m id ns now = .ok (b, m1) ∧
      bulk_go m1 rest ns now (insertKey acc id b) = .ok (r, m2) := by
  unfold bulk_go at h
  cases hres : transition_state m id ns now with
  | error e => rw [hres] at h; cases h
  | ok p =>
      obtain ⟨b, m1⟩ := p
      rw [hres] at h
      exact ⟨b, m1, rfl, h⟩

theorem insertKey_keys_nodup {α : Type} {acc : List (String × α)}
    (h : (acc.map Prod.fst).Nodup) (k : String) (v : α) :
    ((insertKey acc k v).map Prod.fst).Nodup := by
  unfold insertKey
  by_cases hs : (lookupKey acc k).isSome
  · rw [if_pos hs, keys_setKey]
    exact h
  · rw [if_neg hs, List.map_append]
    refine List.Nodup.append h (by simp) ?_
    intro a ha hb
    simp at hb
    subst hb
    exact hs ((lookupKey_isSome_iff acc a).mpr ha)

theorem bulk_go_keys {ids : List String} {ns now : String} :
    ∀ {m m2 : StateMap} {acc r : List (String × Bool)},
      bulk_go m ids ns now acc = .ok (r, m2) →
      (acc.map Prod.fst).Nodup →
      (r.map Prod.fst).Nodup ∧
      (∀ id, (lookupKey r id).isSome ↔
        ((lookupKey acc id).isSome ∨ id ∈ ids)) := by
  induction ids with
  | nil =>
      intro m m2 acc r h hn
      cases h
      exact ⟨hn, fun id => by simp⟩
  | cons id rest ih =>
      intro m m2 acc r h hn
      obtain ⟨b, m1, hres, htail⟩ := bulk_go_cons_ok h
      obtain ⟨hn2, hiff⟩ := ih htail (insertKey_keys_nodup hn id b)
      refine ⟨hn2, fun id2 => ?_⟩
      rw [hiff id2, lookupKey_insertKey]
      by_cases h2 : id2 = id
      · simp [h2]
      · simp [h2]

theorem bulk_go_skip {ids : List String} {ns now id : String}
    (hid : id ∉ ids) :
    ∀ {m m2 : StateMap} {acc r : List (String × Bool)},
      bulk_go m ids ns now acc = .ok (r, m2) →
      lookupKey r id = lookupKey acc id := by
  induction ids with
  | nil =>
      intro m m2 acc r h
      cases h
      rfl
  | cons id1 rest ih =>
      intro m m2 acc r h
      obtain ⟨b, m1, hres, htail⟩ := bulk_go_cons_ok h
      have h1 : id ∉ rest := fun hh => hid (List.mem_cons_of_mem _ hh)
      have h2 : ¬ id = id1 := fun hh => hid (hh ▸ List.mem_cons_self _ _)
      rw [ih h1 htail, lookupKey_insertKey, if_neg h2]

theorem bulk_go_append {pre rest : List String} {ns now : String} :
    ∀ {m m2 : StateMap} {acc r : List (String × Bool)},
      bulk_go m (pre ++ rest) ns now acc = .ok (r, m2) →
      ∃ r1 m1, bulk_go m pre ns now acc = .ok (r1, m1) ∧
        bulk_go m1 rest ns now r1 = .ok (r, m2) := by
  induction pre with
  | nil =>
      intro m m2 acc r h
      exact ⟨acc, m, rfl, h⟩
  | cons id1 tail ih =>
      intro m m2 acc r h
      rw [List.cons_append] at h
      obtain ⟨b, m1, hres, htail⟩ := bulk_go_cons_ok h
      obtain ⟨r1, mmid, hpre, hrest⟩ := ih htail
      refine ⟨r1, mmid, ?_, hrest⟩
      unfold bulk_go
      rw [hres]
      exact hpre

theorem bulk_go_bad {ids : List String} {ns now bad : String} :
    ∀ {m m2 : StateMap} {acc r : List (String × Bool)},
      lookupKey m bad = none →
      (lookupKey acc bad = some false ∨ bad ∈ ids) →
      bulk_go m ids ns now acc = .ok (r, m2) →
      lookupKey r bad = some false := by
  induction ids with
  | nil =>
      intro m m2 acc r hb hacc h
      cases h
      rcases hacc with h1 | h1
      · exact h1
      · simp at h1
  | cons id rest ih =>
      intro m m2 acc r hb hacc h
      obtain ⟨b, m1, hres, htail⟩ := bulk_go_cons_ok h
      have hb1 : lookupKey m1 bad = none := by
        have hdom := transition_dom hres bad
        rw [hb] at hdom
        exact Option.not_isSome_iff_eq_none.mp (by rw [hdom]; simp)
      by_cases hid : id = bad
      · subst hid
        rw [transition_unknown ns now hb] at hres
        cases hres
        exact ih hb1 (Or.inl (by rw [lookupKey_insertKey, if_pos rfl])) htail
      · rcases hacc with h1 | h1
        · refine ih hb1 (Or.inl ?_) htail
          rw [lookupKey_insertKey, if_neg (fun hh => hid hh.symm)]
          exact h1
        · rcases List.mem_cons.mp h1 with h2 | h2
          · exact absurd h2.symm hid
          · exact ih hb1 (Or.inr h2) htail

theorem bulk_go_filter {ids : List String} {ns now bad : String} :
    ∀ {m m2 : StateMap} {acc1 acc2 r1 : List (String × Bool)},
      lookupKey m bad = none →
      (∀ id2, id2 ≠ bad → lookupKey acc2 id2 = lookupKey acc1 id2) →
      bulk_go m ids ns now acc1 = .ok (r1, m2) →
      ∃ r2, bulk_go m (ids.filter (fun i => i != bad)) ns now acc2 =
          .ok (r2, m2) ∧
        ∀ id2, id2 ≠ bad → lookupKey r2 id2 = lookupKey r1 id2 := by
  induction ids with
  | nil =>
      intro m m2 acc1 acc2 r1 hb hagree h
      cases h
      exact ⟨acc2, rfl, hagree⟩
  | cons id rest ih =>
      intro m m2 acc1 acc2 r1 hb hagree h
      obtain ⟨b, m1, hres, htail⟩ := bulk_go_cons_ok h
      have hb1 : lookupKey m1 bad = none := by
        have hdom := transition_dom hres bad
        rw [hb] at hdom
        exact Option.not_isSome_iff_eq_none.mp (by rw [hdom]; simp)
      by_cases hid : id = bad
      · subst hid
        rw [transition_unknown ns now hb] at hres
        cases hres
        have hfil : (id :: rest).filter (fun i => i != id) =
            rest.filter (fun i => i != id) := by
          simp [List.filter_cons]
        rw [hfil]
        refine ih hb1 (fun id2 h2 => ?_) htail
        rw [lookupKey_insertKey, if_neg h2]
        exact hagree id2 h2
      · have hfil : (id :: rest).filter (fun i => i != bad) =
            id :: rest.filter (fun i => i != bad) := by
          simp [List.filter_cons, hid]
        rw [hfil]
        have hagree2 : ∀ id2, id2 ≠ bad →
            lookupKey (insertKey acc2 id b) id2 =
              lookupKey (insertKey acc1 id b) id2 := by
          intro id2 h2
          rw [lookupKey_insertKey, lookupKey_insertKey]
          by_cases h3 : id2 = id
          · rw [if_pos h3, if_pos h3]
          · rw [if_neg h3, if_neg h3]
            exact hagree id2 h2
        obtain ⟨r2, hb2, hagree3⟩ := ih hb1 hagree2 htail
        refine ⟨r2, ?_, hagree3⟩
        unfold bulk_go
        rw [hres]
        exact hb2

/-- C7: `bulk_transition` applies `transition_state` per id in input order —
the whole call succeeds, the result map has exactly one entry per distinct
input id with no duplicates, the entry of an id is the boolean produced by
`transition_state` at the store reached after the ids before its last
occurrence, an unknown id reports `false`, and dropping an unknown id from
the input changes neither the final store nor any other id's result. -/
theorem bulk_transition_spec (m : StateMap) (hv : ValidStates m)
    (ids : List String) (ns now : String) :
    ∃ r m2, bulk_transition m ids ns now = .ok (r, m2) ∧
      (r.map Prod.fst).Nodup ∧
      (∀ id, (lookupKey r id).isSome ↔ id ∈ ids) ∧
      (∀ pre id post, ids = pre ++ id :: post → id ∉ post →
        ∃ r1 mmid b mnext,
          bulk_transition m pre ns now = .ok (r1, mmid) ∧
          transition_state mmid id ns now = .ok (b, mnext) ∧
          lookupKey r id = some b) ∧
      (∀ bad, lookupKey m bad = none →
        (bad ∈ ids → lookupKey r bad = some false) ∧
        ∃ r2, bulk_transition m (ids.filter (fun i => i != bad)) ns now =
            .ok (r2, m2) ∧
          ∀ id2, id2 ≠ bad → lookupKey r2 id2 = lookupKey r id2) := by
  obtain ⟨r, m2, h⟩ := @bulk_go_total ids ns now m [] hv
  refine ⟨r, m2, h, (bulk_go_keys h (by simp)).1, ?_, ?_, ?_⟩
  · intro id
    rw [(bulk_go_keys h (by simp)).2 id]
    simp [lookupKey]
  · intro pre id post hids hpost
    subst hids
    obtain ⟨r1, m1, hpre, hrest⟩ := bulk_go_append h
    obtain ⟨b, mnext, hres, htail⟩ := bulk_go_cons_ok hrest
    refine ⟨r1, m1, b, mnext, hpre, hres, ?_⟩
    rw [bulk_go_skip hpost htail, lookupKey_insertKey, if_pos rfl]
  · intro bad hbad
    refine ⟨fun hmem => bulk_go_bad hbad (Or.inr hmem) h, ?_⟩
    obtain ⟨r2, hb2, hagree⟩ := bulk_go_filter hbad (fun id2 h2 => rfl) h
    exact ⟨r2, hb2, hagree⟩

/-- Witness for C7: publishing `["abc", "zzz", "abc"]` over the one-record
draft store (`zzz` unknown, `abc` duplicated). -/
theorem bulk_transition_spec_witness :
    ∃ r m2, bulk_transition draftStore ["abc", "zzz", "abc"] "published" "t1" =
        .ok (r, m2) ∧
      (r.map Prod.fst).Nodup ∧
      (∀ id, (lookupKey r id).isSome ↔ id ∈ ["abc", "zzz", "abc"]) ∧
      (∀ pre id post, ["abc", "zzz", "abc"] = pre ++ id :: post →
        id ∉ post →
        ∃ r1 mmid b mnext,
          bulk_transition draftStore pre "published" "t1" = .ok (r1, mmid) ∧
          transition_state mmid id "published" "t1" = .ok (b, mnext) ∧
          lookupKey r id = some b) ∧
      (∀ bad, lookupKey draftStore bad = none →
        (bad ∈ ["abc", "zzz", "abc"] → lookupKey r bad = some false) ∧
        ∃ r2, bulk_transition draftStore
            (["abc", "zzz", "abc"].filter (fun i => i != bad)) "published"
            "t1" = .ok (r2, m2) ∧
          ∀ id2, id2 ≠ bad → lookupKey r2 id2 = lookupKey r id2) :=
  bulk_transition_spec draftStore draftStore_valid ["abc", "zzz", "abc"]
    "published" "t1"

/-! ### Claim theorems: durable store loading -/

/-- C8 counterexample: a stored file whose content is the valid JSON array
`[]` decodes fine under `json.load`, but `data.items()` then raises
`AttributeError`, which `_load_states` does not catch — it does not return an
empty mapping for this content that fails to decode to the expected record
mapping. -/
theorem load_states_raises_on_array :
    load_states (.decoded (Json.arr [])) = .error () := rfl

/-- C8 amended: `_load_states` returns the empty mapping for a missing file
or content that fails JSON parsing (an empty file included), and the stored
mapping for a well-formed object of records; but content that is valid JSON
of the wrong shape — a non-object, or an object whose values are not
well-formed record dictionaries — raises (`AttributeError`/`TypeError`
escape the `except` clause) instead of yielding an empty mapping. -/
theorem load_states_spec :
    (load_states .missingFile = .ok []) ∧
    (load_states .undecodable = .ok []) ∧
    (∀ items l, items.mapM decodeItem = some l →
      load_states (.decoded (Json.obj items)) = .ok l) ∧
    (∀ items, items.mapM decodeItem = none →
      load_states (.decoded (Json.obj items)) = .error ()) ∧
    (∀ j, (∀ items, j ≠ Json.obj items) →
      load_states (.decoded j) = .error ()) := by
  refine ⟨rfl, rfl, ?_, ?_, ?_⟩
  · intro items l hm
    unfold load_states
    simp only [hm]
  · intro items hm
    unfold load_states
    simp only [hm]
  · intro j hj
    cases j with
    | obj fields => exact absurd rfl (hj fields)
    | null => rfl
    | bool b => rfl
    | num n => rfl
    | str s2 => rfl
    | arr xs => rfl

/-- A well-formed one-record stored object. -/
def sampleItems : List (String × Json) :=
  [("abc", Json.obj
    [("card_id", Json.str "abc"), ("card_type", Json.str "resource_core"),
     ("state", Json.str "draft"), ("created_at", Json.str "t0")])]

/-- The record mapping `sampleItems` decodes to. -/
def sampleDecoded : List (String × RawCardState) :=
  [("abc",
    { card_id := Json.str "abc", card_type := Json.str "resource_core",
      state := Json.str "draft", created_at := Json.str "t0" })]

/-- Witness for C8 (amended) on the well-formed one-record object. -/
theorem load_states_spec_witness :
    load_states (.decoded (Json.obj sampleItems)) = .ok sampleDecoded :=
  load_states_spec.2.2.1 sampleItems sampleDecoded rfl

end StarCore
